import Mathlib

/-!
# Super Drive — verification of the file-catalog and enrichment workflow

A shallow embedding of the browser-based personal file store's local logic:
the data model (`src/types.ts`), the pure utilities and the Dashboard
Controller's catalog mutations (`src/App.tsx`), and the Content Analysis
caller (`src/services/gemini.ts`).

Modelling conventions:
* Machine numbers: JS timestamps and day arithmetic use `Int` (all values in
  range, no overflow occurs in the source's arithmetic).
* Fallible code returns `Except`/`Option`; a thrown JS exception is an
  `Except.error` (or `Option.none` for the platform's `JSON.parse`).
* External platform calls (the Gemini transport, `crypto.randomUUID`,
  `Date.now`) enter as explicit parameters; the repository's own logic is
  translated statement by statement.
-/

namespace SuperDrive

/-! ## Data model (src/types.ts) -/

/-- `FileType` from src/types.ts: the coarse file category. -/
inductive FileType where
  | image
  | text
  | pdf
  | video
  | audio
  | other
deriving DecidableEq, Repr

/-- `AIAnalysis` from src/types.ts: the enrichment attached to a record. -/
structure AIAnalysis where
  summary : String
  tags : List String
  isAnalyzing : Bool
deriving DecidableEq, Repr

/-- `DriveFile` from src/types.ts: one catalog record.  `uploadDate` is a JS
millisecond timestamp, `data` the base64 payload, `aiData` the optional
enrichment. -/
structure DriveFile where
  id : String
  name : String
  type : FileType
  mimeType : String
  size : Nat
  uploadDate : Int
  data : String
  notes : String
  aiData : Option AIAnalysis
deriving DecidableEq, Repr

/-- The `type` member of `FilterState` (src/types.ts): a specific kind or
the string literal "all". -/
inductive TypeFilter where
  | all
  | only (t : FileType)
deriving DecidableEq, Repr

/-- The `dateRange` member of `FilterState` (src/types.ts); reserved, never
used for narrowing in src/App.tsx. -/
inductive DateRange where
  | all
  | today
  | week
  | month
deriving DecidableEq, Repr

/-- `FilterState` from src/types.ts. -/
structure FilterState where
  search : String
  type : TypeFilter
  dateRange : DateRange
deriving DecidableEq, Repr

/-! ## String model

The source calls the platform string builtins `startsWith`, `endsWith`,
`toLowerCase` and `includes`.  They are modelled here over the string's
character list, matching the JS semantics (in particular
`includes` of the empty string is `true`). -/

/-- JS `String.prototype.startsWith`. -/
def strStartsWith (s p : String) : Bool := p.data.isPrefixOf s.data

/-- JS `String.prototype.endsWith`. -/
def strEndsWith (s p : String) : Bool := p.data.isSuffixOf s.data

/-- JS `String.prototype.toLowerCase` (per-character lowering). -/
def strToLower (s : String) : String := String.mk (s.data.map Char.toLower)

/-- JS `String.prototype.includes`: `q` occurs as a contiguous substring. -/
def strIncludes (s q : String) : Bool := s.data.tails.any (fun t => q.data.isPrefixOf t)

/-! ## getFileType (src/App.tsx lines 28-35) -/

/-- `getFileType` from src/App.tsx:
MIME prefix `image/` → image, `video/` → video, `audio/` → audio; exact MIME
`application/pdf` → pdf; MIME prefix `text/` or a name ending in `.txt` or
`.md` → text; anything else → other. -/
def getFileType (mime : String) (name : String) : FileType :=
  if strStartsWith mime "image/" then .image
  else if strStartsWith mime "video/" then .video
  else if strStartsWith mime "audio/" then .audio
  else if mime = "application/pdf" then .pdf
  else if strStartsWith mime "text/" || strEndsWith name ".txt" || strEndsWith name ".md" then .text
  else .other

end SuperDrive

namespace SuperDrive

/-- C6: for every MIME type and filename the detected kind follows the fixed
priority of `getFileType`: image/video/audio by MIME prefix first, else pdf by
exact MIME match, else text by MIME prefix `text/` or filename extension
(`.txt`/`.md`), else other; in particular `image/png` always yields image,
`application/pdf` always yields pdf, and `text/plain` or a name ending in
`.md` (when the MIME is not otherwise matched) yields text. -/
theorem getFileType_priority (mime name : String) :
    (strStartsWith mime "image/" = true → getFileType mime name = .image) ∧
    (strStartsWith mime "image/" = false → strStartsWith mime "video/" = true →
      getFileType mime name = .video) ∧
    (strStartsWith mime "image/" = false → strStartsWith mime "video/" = false →
      strStartsWith mime "audio/" = true → getFileType mime name = .audio) ∧
    (strStartsWith mime "image/" = false → strStartsWith mime "video/" = false →
      strStartsWith mime "audio/" = false → mime = "application/pdf" →
      getFileType mime name = .pdf) ∧
    (strStartsWith mime "image/" = false → strStartsWith mime "video/" = false →
      strStartsWith mime "audio/" = false → mime ≠ "application/pdf" →
      (strStartsWith mime "text/" = true ∨ strEndsWith name ".txt" = true ∨
        strEndsWith name ".md" = true) →
      getFileType mime name = .text) ∧
    (strStartsWith mime "image/" = false → strStartsWith mime "video/" = false →
      strStartsWith mime "audio/" = false → mime ≠ "application/pdf" →
      strStartsWith mime "text/" = false → strEndsWith name ".txt" = false →
      strEndsWith name ".md" = false → getFileType mime name = .other) ∧
    (getFileType "image/png" name = .image) ∧
    (getFileType "application/pdf" name = .pdf) ∧
    (getFileType "text/plain" name = .text) := by
  unfold getFileType
  refine ⟨?_, ?_, ?_, ?_, ?_, ?_, ?_, ?_, ?_⟩
  · intro h; simp [h]
  · intro h1 h2; simp [h1, h2]
  · intro h1 h2 h3; simp [h1, h2, h3]
  · intro h1 h2 h3 h4; subst h4; simp [h1, h2, h3]
  · intro h1 h2 h3 h4 h5
    rcases h5 with h | h | h <;> simp [h1, h2, h3, h4, h]
  · intro h1 h2 h3 h4 h5 h6 h7; simp [h1, h2, h3, h4, h5, h6, h7]
  · have h : strStartsWith "image/png" "image/" = true := by decide
    simp [h]
  · have h1 : strStartsWith "application/pdf" "image/" = false := by decide
    have h2 : strStartsWith "application/pdf" "video/" = false := by decide
    have h3 : strStartsWith "application/pdf" "audio/" = false := by decide
    simp [h1, h2, h3]
  · have h1 : strStartsWith "text/plain" "image/" = false := by decide
    have h2 : strStartsWith "text/plain" "video/" = false := by decide
    have h3 : strStartsWith "text/plain" "audio/" = false := by decide
    have h4 : ("text/plain" : String) ≠ "application/pdf" := by decide
    have h5 : strStartsWith "text/plain" "text/" = true := by decide
    simp [h1, h2, h3, h4, h5]

end SuperDrive

namespace SuperDrive

/-! ## Content analysis results and catalog mutations (src/App.tsx) -/

/-- The resolved value of `analyzeFileContent` (src/services/gemini.ts):
`{ summary: string; tags: string[] }`. -/
structure AnalysisResult where
  summary : String
  tags : List String
deriving DecidableEq, Repr

/-- The full enrichment value the follow-up of `handleConfirmUpload`
(src/App.tsx lines 690-705) writes into the matching record: the try branch
(`Except.ok`) stores `{ ...aiResult, isAnalyzing: false }`, the catch branch
(`Except.error`) stores `{ isAnalyzing: false, summary: "Analysis failed",
tags: [] }`.  Exactly one branch runs per outcome, and each replaces the
whole `aiData` object. -/
def patchedAI : Except String AnalysisResult → AIAnalysis
  | .ok r => { summary := r.summary, tags := r.tags, isAnalyzing := false }
  | .error _ => { summary := "Analysis failed", tags := [], isAnalyzing := false }

/-- The enrichment patch of `handleConfirmUpload` (src/App.tsx lines
693-704): `prev.map(f => f.id === id ? { ...f, aiData: ... } : f)`. -/
def enrichPatch (id : String) (outcome : Except String AnalysisResult)
    (files : List DriveFile) : List DriveFile :=
  files.map fun f => if f.id = id then { f with aiData := some (patchedAI outcome) } else f

/-- `handleDelete` (src/App.tsx lines 712-717) after the user confirms:
`prev.filter(f => f.id !== id)`. -/
def deleteFile (id : String) (files : List DriveFile) : List DriveFile :=
  files.filter fun f => f.id != id

/-- `handleSaveEdit` (src/App.tsx lines 727-736):
`prev.map(f => f.id === editingFileId ? { ...f, name, notes } : f)`. -/
def editFile (id newName newNotes : String) (files : List DriveFile) : List DriveFile :=
  files.map fun f => if f.id = id then { f with name := newName, notes := newNotes } else f

/-- The JS `File` staged for upload: only its MIME type and size are read by
`handleConfirmUpload`. -/
structure RawFile where
  type : String
  size : Nat
deriving DecidableEq, Repr

/-- The catalog insert of `handleConfirmUpload` (src/App.tsx lines 665-689):
guarded by `if (!uploadFile || !uploadPreview) return;` (a missing staged
file or a missing/empty preview leaves the catalog alone), otherwise builds
the new record — fresh identifier from `crypto.randomUUID()` (passed in as
`freshId`), kind from `getFileType`, timestamp from `Date.now()` (passed in
as `now`), enrichment `{ isAnalyzing: true, summary: '', tags: [] }` — and
prepends it: `setFiles(prev => [newFile, ...prev])`. -/
def confirmUpload (uploadFile : Option RawFile) (uploadPreview : Option String)
    (uploadName uploadNotes freshId : String) (now : Int)
    (files : List DriveFile) : List DriveFile :=
  match uploadFile, uploadPreview with
  | some uf, some pv =>
    if pv = "" then files
    else
      { id := freshId, name := uploadName, type := getFileType uf.type uploadName,
        mimeType := uf.type, size := uf.size, uploadDate := now, data := pv,
        notes := uploadNotes,
        aiData := some { summary := "", tags := [], isAnalyzing := true } } :: files
  | _, _ => files

end SuperDrive

namespace SuperDrive

/-- C1: when the enrichment call for a confirmed upload fails (the analysis
client throws), the catch branch replaces the matching record's enrichment
with exactly `{ analyzing: false, summary: "Analysis failed", tags: [] }`,
leaves every other field and every other record untouched, and the patch is
atomic: per outcome exactly one of the success/failure replacements is
written, never a partial mix. -/
theorem enrichPatch_failure_atomic (files : List DriveFile) (id : String) (e : String) :
    (enrichPatch id (Except.error e) files).length = files.length ∧
    (∀ i (hi : i < files.length) (hi2 : i < (enrichPatch id (Except.error e) files).length),
      (enrichPatch id (Except.error e) files).get ⟨i, hi2⟩ =
        (if (files.get ⟨i, hi⟩).id = id
         then { files.get ⟨i, hi⟩ with
                aiData := some { summary := "Analysis failed", tags := [],
                                 isAnalyzing := false } }
         else files.get ⟨i, hi⟩)) ∧
    (patchedAI (Except.error e) =
      { summary := "Analysis failed", tags := [], isAnalyzing := false }) ∧
    (∀ r : AnalysisResult, patchedAI (Except.ok r) =
      { summary := r.summary, tags := r.tags, isAnalyzing := false }) := by
  refine ⟨List.length_map files _, ?_, rfl, fun r => rfl⟩
  intro i hi hi2
  simp [enrichPatch, patchedAI, List.get_eq_getElem, List.getElem_map]

/-- C9: `confirmUpload` with a staged payload present builds the new record
(fresh identifier, kind from MIME type and filename, enrichment initialised
to analyzing with empty summary and tags) and prepends it to the catalog;
with no staged payload the catalog is unchanged; a fresh identifier keeps
the catalog's identifiers duplicate-free. -/
theorem confirmUpload_spec (uploadFile : Option RawFile) (uploadPreview : Option String)
    (uploadName uploadNotes freshId : String) (now : Int) (files : List DriveFile) :
    (∀ uf pv, uploadFile = some uf → uploadPreview = some pv → pv ≠ "" →
      confirmUpload uploadFile uploadPreview uploadName uploadNotes freshId now files =
        { id := freshId, name := uploadName, type := getFileType uf.type uploadName,
          mimeType := uf.type, size := uf.size, uploadDate := now, data := pv,
          notes := uploadNotes,
          aiData := some { summary := "", tags := [], isAnalyzing := true } } :: files) ∧
    (uploadFile = none ∨ uploadPreview = none ∨ uploadPreview = some "" →
      confirmUpload uploadFile uploadPreview uploadName uploadNotes freshId now files =
        files) ∧
    (freshId ∉ files.map DriveFile.id → (files.map DriveFile.id).Nodup →
      ((confirmUpload uploadFile uploadPreview uploadName uploadNotes freshId now
          files).map DriveFile.id).Nodup) := by
  refine ⟨?_, ?_, ?_⟩
  · intro uf pv huf hpv hne
    subst huf; subst hpv
    simp [confirmUpload, hne]
  · intro h
    rcases h with h | h | h
    · subst h; cases uploadPreview <;> simp [confirmUpload]
    · subst h; cases uploadFile <;> simp [confirmUpload]
    · subst h; cases uploadFile <;> simp [confirmUpload]
  · intro hfresh hnodup
    cases uploadFile with
    | none => simpa [confirmUpload] using hnodup
    | some uf =>
      cases uploadPreview with
      | none => simpa [confirmUpload] using hnodup
      | some pv =>
        by_cases hpv : pv = ""
        · simpa [confirmUpload, hpv] using hnodup
        · simp only [confirmUpload, hpv, if_neg, List.map_cons]
          exact List.Nodup.cons (by simpa using hfresh) hnodup

end SuperDrive

namespace SuperDrive

/-! ## Mutation sequences and the persist effect (src/App.tsx lines 593-595)

Every catalog mutation in the dashboard goes through `setFiles`; the
`useEffect` on `[files, user.uid]` then writes
`localStorage.setItem('gemini-drive-files-' + user.uid, JSON.stringify(files))`.
The store is modelled as an association list from keys to catalogs (the
stored string is `JSON.stringify` of the catalog, kept here in decoded form:
serialisation of the record array is injective and round-trips). -/

/-- One catalog mutation: the four `setFiles` call sites of the dashboard. -/
inductive Mutation where
  | insert (f : DriveFile)
  | delete (id : String)
  | edit (id newName newNotes : String)
  | enrich (id : String) (outcome : Except String AnalysisResult)

/-- The identifier a mutation inserts, if it is an insert. -/
def mutationInsertedId : Mutation → Option String
  | .insert f => some f.id
  | _ => none

/-- The in-memory effect of one mutation (the corresponding handler's
`setFiles` updater). -/
def applyMutation (m : Mutation) (files : List DriveFile) : List DriveFile :=
  match m with
  | .insert f => f :: files
  | .delete id => deleteFile id files
  | .edit id n t => editFile id n t files
  | .enrich id outcome => enrichPatch id outcome files

/-- A sequence of mutations applied in order. -/
def applyAll (files : List DriveFile) (ms : List Mutation) : List DriveFile :=
  ms.foldl (fun fs m => applyMutation m fs) files

/-- The dashboard's state: the signed-in user, the in-memory catalog and the
browser's local storage. -/
structure DashboardState where
  uid : String
  files : List DriveFile
  storage : List (String × List DriveFile)

/-- The user-scoped storage key `gemini-drive-files-${user.uid}`. -/
def storageKey (uid : String) : String := "gemini-drive-files-" ++ uid

/-- `localStorage.setItem`: replace the value under `k`, or append it. -/
def setItem (storage : List (String × List DriveFile)) (k : String)
    (v : List DriveFile) : List (String × List DriveFile) :=
  match storage with
  | [] => [(k, v)]
  | (k', v') :: rest => if k' = k then (k, v) :: rest else (k', v') :: setItem rest k v

/-- `localStorage.getItem`. -/
def getItem (storage : List (String × List DriveFile)) (k : String) :
    Option (List DriveFile) :=
  List.lookup k storage

/-- One mutation followed by the persist effect, as the dashboard sequences
them. -/
def step (s : DashboardState) (m : Mutation) : DashboardState :=
  let files := applyMutation m s.files
  { uid := s.uid, files := files, storage := setItem s.storage (storageKey s.uid) files }

/-- A whole mutation sequence with persistence after each mutation. -/
def runMutations (s : DashboardState) (ms : List Mutation) : DashboardState :=
  ms.foldl step s

theorem getItem_setItem_self (storage : List (String × List DriveFile))
    (k : String) (v : List DriveFile) : getItem (setItem storage k v) k = some v := by
  induction storage with
  | nil => simp [setItem, getItem, List.lookup]
  | cons p rest ih =>
    obtain ⟨k', v'⟩ := p
    by_cases h : k' = k
    · simp [setItem, getItem, List.lookup, h]
    · have hne : (k == k') = false := by
        simp only [beq_eq_false_iff_ne]
        exact fun hh => h hh.symm
      simpa [setItem, getItem, List.lookup, h, hne] using ih

theorem step_persists (s : DashboardState) (m : Mutation) :
    getItem (step s m).storage (storageKey (step s m).uid) = some (step s m).files := by
  simp [step, getItem_setItem_self]

theorem step_uid (s : DashboardState) (m : Mutation) : (step s m).uid = s.uid := rfl

theorem run_preserves_persist (ms : List Mutation) : ∀ s : DashboardState,
    getItem s.storage (storageKey s.uid) = some s.files →
    getItem (runMutations s ms).storage (storageKey s.uid) =
      some (runMutations s ms).files := by
  induction ms with
  | nil => intro s h; simpa [runMutations] using h
  | cons m ms ih =>
    intro s h
    have hstep : getItem (step s m).storage (storageKey (step s m).uid) =
        some (step s m).files := step_persists s m
    rw [step_uid] at hstep
    simpa [runMutations] using ih (step s m) hstep

end SuperDrive

namespace SuperDrive

/-- C4: after any mutation of a nonempty mutation sequence (insert, delete,
edit or enrichment patch), the catalog persisted to local storage under the
active user's key equals the in-memory catalog — persistence never drifts. -/
theorem persisted_eq_inMemory (s : DashboardState) (m : Mutation) (ms : List Mutation) :
    getItem (runMutations s (m :: ms)).storage (storageKey s.uid) =
      some (runMutations s (m :: ms)).files := by
  have h0 : getItem (step s m).storage (storageKey (step s m).uid) =
      some (step s m).files := step_persists s m
  rw [step_uid] at h0
  have h := run_preserves_persist ms (step s m) h0
  rw [step_uid] at h
  simpa [runMutations] using h

end SuperDrive

namespace SuperDrive

/-! ## Deletion versus a late enrichment patch (C5) -/

/-- No record of `files` carries identifier `id`. -/
def idAbsent (id : String) (files : List DriveFile) : Prop :=
  ∀ f ∈ files, f.id ≠ id

theorem idAbsent_deleteFile (id : String) (files : List DriveFile) :
    idAbsent id (deleteFile id files) := by
  intro f hf
  rcases List.mem_filter.mp hf with ⟨-, hpred⟩
  simpa using hpred

theorem enrichPatch_of_idAbsent (id : String) (outcome : Except String AnalysisResult)
    (files : List DriveFile) (h : idAbsent id files) :
    enrichPatch id outcome files = files := by
  unfold enrichPatch
  conv_rhs => rw [← List.map_id files]
  refine List.map_congr_left fun f hf => ?_
  simp [h f hf]

theorem idAbsent_applyMutation (id : String) (m : Mutation) (files : List DriveFile)
    (h : idAbsent id files) (hm : mutationInsertedId m ≠ some id) :
    idAbsent id (applyMutation m files) := by
  cases m with
  | insert g =>
    intro f hf
    rcases List.mem_cons.mp hf with rfl | hf
    · intro hid
      exact hm (by simp [mutationInsertedId, hid])
    · exact h f hf
  | delete id' =>
    intro f hf
    exact h f (List.mem_of_mem_filter hf)
  | edit id' n t =>
    intro f hf
    rcases List.mem_map.mp hf with ⟨g, hg, rfl⟩
    by_cases hid : g.id = id'
    · simp only [editFile, hid, if_pos]
      exact fun hh => h g hg (hid.trans hh)
    · simpa [editFile, hid] using h g hg
  | enrich id' outcome =>
    intro f hf
    rcases List.mem_map.mp hf with ⟨g, hg, rfl⟩
    by_cases hid : g.id = id'
    · simp only [enrichPatch, hid, if_pos]
      exact fun hh => h g hg (hid.trans hh)
    · simpa [enrichPatch, hid] using h g hg

theorem idAbsent_applyAll (id : String) (ms : List Mutation) : ∀ files : List DriveFile,
    idAbsent id files → (∀ m ∈ ms, mutationInsertedId m ≠ some id) →
    idAbsent id (applyAll files ms) := by
  induction ms with
  | nil => intro files h _; simpa [applyAll] using h
  | cons m ms ih =>
    intro files h hms
    have h1 : idAbsent id (applyMutation m files) :=
      idAbsent_applyMutation id m files h (hms m (List.mem_cons_self m ms))
    have h2 : ∀ m' ∈ ms, mutationInsertedId m' ≠ some id :=
      fun m' hm' => hms m' (List.mem_cons_of_mem m hm')
    simpa [applyAll] using ih (applyMutation m files) h1 h2

end SuperDrive

namespace SuperDrive

/-- C5: once a record is deleted, its identifier is absent from the catalog;
it stays absent across any further mutations none of which inserts that
identifier (fresh identifiers), and a late-arriving enrichment patch for it
— matched by identifier — is a complete no-op: the catalog is unchanged, so
no other record is modified either. -/
theorem delete_then_late_patch_noop (files : List DriveFile) (id : String)
    (ms : List Mutation) (outcome : Except String AnalysisResult)
    (hfresh : ∀ m ∈ ms, mutationInsertedId m ≠ some id) :
    idAbsent id (deleteFile id files) ∧
    idAbsent id (applyAll (deleteFile id files) ms) ∧
    enrichPatch id outcome (applyAll (deleteFile id files) ms) =
      applyAll (deleteFile id files) ms := by
  have h0 : idAbsent id (deleteFile id files) := idAbsent_deleteFile id files
  have h1 : idAbsent id (applyAll (deleteFile id files) ms) :=
    idAbsent_applyAll id ms (deleteFile id files) h0 hfresh
  exact ⟨h0, h1, enrichPatch_of_idAbsent id outcome _ h1⟩

/-- A sample record used to instantiate hypotheses of the claims' theorems
at concrete inputs. -/
def sampleFile : DriveFile :=
  { id := "id-1", name := "a.txt", type := .text, mimeType := "text/plain",
    size := 10, uploadDate := 1000, data := "ZGF0YQ==", notes := "",
    aiData := some { summary := "", tags := [], isAnalyzing := true } }

/-- A second sample record with a different identifier and an older
timestamp. -/
def sampleFile2 : DriveFile :=
  { id := "id-2", name := "b.png", type := .image, mimeType := "image/png",
    size := 20, uploadDate := 500, data := "cGc=", notes := "photo",
    aiData := none }

/-- Witness for C5: deleting `sampleFile` from a concrete two-record catalog
and then editing the other record leaves the identifier absent, and the late
enrichment patch for it changes nothing. -/
theorem delete_then_late_patch_noop_witness :
    idAbsent "id-1" (deleteFile "id-1" [sampleFile, sampleFile2]) ∧
    idAbsent "id-1"
      (applyAll (deleteFile "id-1" [sampleFile, sampleFile2])
        [Mutation.edit "id-2" "c.png" "renamed"]) ∧
    enrichPatch "id-1" (Except.ok { summary := "hello", tags := ["x", "y"] })
        (applyAll (deleteFile "id-1" [sampleFile, sampleFile2])
          [Mutation.edit "id-2" "c.png" "renamed"]) =
      applyAll (deleteFile "id-1" [sampleFile, sampleFile2])
        [Mutation.edit "id-2" "c.png" "renamed"] :=
  delete_then_late_patch_noop [sampleFile, sampleFile2] "id-1"
    [Mutation.edit "id-2" "c.png" "renamed"]
    (Except.ok { summary := "hello", tags := ["x", "y"] })
    (by intro m hm; rcases List.mem_singleton.mp hm with rfl; simp [mutationInsertedId])

end SuperDrive

namespace SuperDrive

/-! ## Derived view: filteredFiles (src/App.tsx lines 607-628) -/

/-- The search predicate of `filteredFiles`: case-insensitive substring match
over name, notes, enrichment summary and any enrichment tag (the two
optional chains `f.aiData?.summary...` and `f.aiData?.tags.some(...)` are
falsy when `aiData` is absent). -/
def matchesSearch (search : String) (f : DriveFile) : Bool :=
  let q := strToLower search
  strIncludes (strToLower f.name) q ||
  strIncludes (strToLower f.notes) q ||
  (match f.aiData with
   | some a =>
     strIncludes (strToLower a.summary) q ||
       a.tags.any fun t => strIncludes (strToLower t) q
   | none => false)

/-- The two conditional filters of `filteredFiles`: the search filter runs
only when `filter.search` is truthy (a non-empty string), the kind filter
only when `filter.type !== 'all'`. -/
def filterChain (files : List DriveFile) (fil : FilterState) : List DriveFile :=
  let r1 := if fil.search ≠ "" then files.filter (matchesSearch fil.search) else files
  match fil.type with
  | TypeFilter.all => r1
  | TypeFilter.only t => r1.filter fun f => decide (f.type = t)

/-- The comparator `(a, b) => b.uploadDate - a.uploadDate` of the final
`.sort`: `a` may stay before `b` exactly when the comparator is ≤ 0. -/
def dateDescLe (a b : DriveFile) : Bool := decide (b.uploadDate ≤ a.uploadDate)

/-- JS `Array.prototype.sort` (stable since ES2019) with the descending
date comparator. -/
def sortByDateDesc (files : List DriveFile) : List DriveFile :=
  files.mergeSort dateDescLe

/-- `filteredFiles` (src/App.tsx lines 607-628): search filter, then kind
filter, then stable sort by upload timestamp descending. -/
def filteredFiles (files : List DriveFile) (fil : FilterState) : List DriveFile :=
  sortByDateDesc (filterChain files fil)

theorem dateDescLe_trans : ∀ a b c, dateDescLe a b = true → dateDescLe b c = true →
    dateDescLe a c = true := by
  intro a b c h1 h2
  simp only [dateDescLe, decide_eq_true_eq] at h1 h2 ⊢
  exact le_trans h2 h1

theorem dateDescLe_total : ∀ a b, (dateDescLe a b || dateDescLe b a) = true := by
  intro a b
  simp only [dateDescLe, Bool.or_eq_true, decide_eq_true_eq]
  exact le_total _ _

theorem mem_filterChain (files : List DriveFile) (fil : FilterState) (f : DriveFile) :
    f ∈ filterChain files fil ↔
      (f ∈ files ∧ (fil.search ≠ "" → matchesSearch fil.search f = true) ∧
        (∀ t, fil.type = TypeFilter.only t → f.type = t)) := by
  rcases fil with ⟨s, ty, dr⟩
  by_cases hs : s = "" <;> cases ty
  all_goals simp [filterChain, hs, List.mem_filter]
  all_goals tauto

theorem filter_sortByDateDesc (l : List DriveFile) (p : DriveFile → Bool)
    (hp : ∀ a ∈ l, ∀ b ∈ l, p a = true → p b = true → dateDescLe a b = true) :
    (sortByDateDesc l).filter p = l.filter p := by
  have hpair : List.Pairwise (fun a b => dateDescLe a b = true) (l.filter p) := by
    refine List.pairwise_of_forall_mem_list fun a ha b hb => ?_
    rcases List.mem_filter.mp ha with ⟨ha', hpa⟩
    rcases List.mem_filter.mp hb with ⟨hb', hpb⟩
    exact hp a ha' b hb' hpa hpb
  have hsub : (l.filter p).Sublist (sortByDateDesc l) :=
    List.sublist_mergeSort dateDescLe_trans dateDescLe_total hpair (List.filter_sublist l)
  have hsub2 : (l.filter p).Sublist ((sortByDateDesc l).filter p) := by
    have := hsub.filter p
    simpa [List.filter_filter] using this
  have hlen : ((sortByDateDesc l).filter p).length = (l.filter p).length :=
    ((List.mergeSort_perm l dateDescLe).filter p).length_eq
  exact (hsub2.eq_of_length hlen.symm).symm

end SuperDrive

namespace SuperDrive

/-- C7: `filteredFiles` is a pure function of catalog and filter state.  Its
result is a permutation of the conditionally filtered catalog; a record is
in it exactly when it is in the catalog, matches the case-insensitive search
(when a search string is set), and has the selected kind (when one is
selected); the result is sorted by upload timestamp descending and the sort
is stable (records with equal timestamps keep their filtered order); with an
empty search and kind "all" it is exactly the full catalog stably sorted by
upload timestamp descending. -/
theorem filteredFiles_spec (files : List DriveFile) (fil : FilterState) :
    (filteredFiles files fil).Perm (filterChain files fil) ∧
    (∀ f, f ∈ filteredFiles files fil ↔
      (f ∈ files ∧ (fil.search ≠ "" → matchesSearch fil.search f = true) ∧
        (∀ t, fil.type = TypeFilter.only t → f.type = t))) ∧
    List.Pairwise (fun a b => b.uploadDate ≤ a.uploadDate) (filteredFiles files fil) ∧
    (∀ t : Int,
      (filteredFiles files fil).filter (fun f => decide (f.uploadDate = t)) =
        (filterChain files fil).filter (fun f => decide (f.uploadDate = t))) ∧
    (fil.search = "" → fil.type = TypeFilter.all →
      filteredFiles files fil = sortByDateDesc files ∧
        (filteredFiles files fil).Perm files) := by
  have hperm : (filteredFiles files fil).Perm (filterChain files fil) :=
    List.mergeSort_perm (filterChain files fil) dateDescLe
  refine ⟨hperm, ?_, ?_, ?_, ?_⟩
  · intro f
    rw [show (f ∈ filteredFiles files fil) ↔ f ∈ filterChain files fil from hperm.mem_iff]
    exact mem_filterChain files fil f
  · have h := List.sorted_mergeSort dateDescLe_trans dateDescLe_total (filterChain files fil)
    exact h.imp fun hab => by simpa [dateDescLe] using hab
  · intro t
    refine filter_sortByDateDesc (filterChain files fil) _ ?_
    intro a _ b _ hpa hpb
    simp only [decide_eq_true_eq] at hpa hpb
    simp [dateDescLe, hpa, hpb]
  · intro hs ht
    rcases fil with ⟨s, ty, dr⟩
    simp only at hs ht
    subst hs; subst ht
    have hchain : filterChain files ⟨"", TypeFilter.all, dr⟩ = files := by
      simp [filterChain]
    constructor
    · rw [filteredFiles, hchain]
    · rw [filteredFiles, hchain]
      exact List.mergeSort_perm files dateDescLe

end SuperDrive

namespace SuperDrive

/-! ## Date grouping: groupFilesByDate (src/App.tsx lines 37-56)

`groupFilesByDate` compares `date.toDateString()` against today's and
yesterday's (`setDate(getDate() - 1)`) date strings: equality of local
calendar days.  The local calendar is modelled with a fixed UTC offset
`off` in milliseconds (no DST transition within the comparison), so two
timestamps fall on the same local calendar day exactly when their shifted
floor-day numbers agree. -/

/-- One day in milliseconds. -/
def msPerDay : Int := 86400000

/-- The local calendar day number of timestamp `t` under UTC offset `off`
(Int division is floor division for the positive divisor). -/
def dayOf (off t : Int) : Int := (t + off) / msPerDay

/-- The `Intl.DateTimeFormat('en-US', { month: 'long', day: 'numeric',
year: 'numeric' })` label, modelled as an injective function of the local
calendar day; the real formatter prints month-name day, year and never
produces the strings "Today" or "Yesterday". -/
def formatFullDate (off t : Int) : String := "Day " ++ toString (dayOf off t)

/-- The group key `groupFilesByDate` computes for one record: the formatted
full date, overridden by "Today" when the record's local calendar day equals
today's and by "Yesterday" when it equals the previous calendar day. -/
def dateKey (off now t : Int) : String :=
  if dayOf off t = dayOf off now then "Today"
  else if dayOf off t = dayOf off now - 1 then "Yesterday"
  else formatFullDate off t

/-- `if (!groups[key]) groups[key] = []; groups[key].push(file)`: append to
the key's bucket, creating it at the end on first occurrence (JS object
string keys iterate in first-insertion order). -/
def addToGroups (groups : List (String × List DriveFile)) (k : String)
    (f : DriveFile) : List (String × List DriveFile) :=
  match groups with
  | [] => [(k, [f])]
  | (k', fs) :: rest =>
    if k' = k then (k', fs ++ [f]) :: rest else (k', fs) :: addToGroups rest k f

/-- `groupFilesByDate` (src/App.tsx lines 37-56). -/
def groupFilesByDate (off now : Int) (files : List DriveFile) :
    List (String × List DriveFile) :=
  files.foldl (fun gs f => addToGroups gs (dateKey off now f.uploadDate) f) []

theorem lookup_addToGroups_self (gs : List (String × List DriveFile)) (k : String)
    (f : DriveFile) :
    List.lookup k (addToGroups gs k f) = some (((List.lookup k gs).getD []) ++ [f]) := by
  induction gs with
  | nil => simp [addToGroups, List.lookup]
  | cons p rest ih =>
    obtain ⟨k', fs⟩ := p
    by_cases h : k' = k
    · subst h
      simp [addToGroups, List.lookup]
    · have hne : (k == k') = false := by
        simp only [beq_eq_false_iff_ne]
        exact fun hh => h hh.symm
      simpa [addToGroups, h, List.lookup, hne] using ih

theorem lookup_addToGroups_ne (gs : List (String × List DriveFile)) (k k' : String)
    (f : DriveFile) (h : k' ≠ k) :
    List.lookup k' (addToGroups gs k f) = List.lookup k' gs := by
  induction gs with
  | nil =>
    have hne : (k' == k) = false := by
      simp only [beq_eq_false_iff_ne]
      exact h
    simp [addToGroups, List.lookup, hne]
  | cons p rest ih =>
    obtain ⟨k0, fs⟩ := p
    by_cases h0 : k0 = k
    · subst h0
      have hne : (k' == k0) = false := by
        simp only [beq_eq_false_iff_ne]
        exact h
      simp [addToGroups, List.lookup, hne]
    · by_cases h1 : k' = k0
      · subst h1
        simp [addToGroups, h0, List.lookup]
      · have hne : (k' == k0) = false := by
          simp only [beq_eq_false_iff_ne]
          exact h1
        simpa [addToGroups, h0, List.lookup, hne] using ih

theorem mem_groupFold (off now : Int) (files : List DriveFile) :
    ∀ (gs : List (String × List DriveFile)) (f : DriveFile),
    ((∃ fs, List.lookup (dateKey off now f.uploadDate) gs = some fs ∧ f ∈ fs) ∨ f ∈ files) →
    ∃ fs, List.lookup (dateKey off now f.uploadDate)
        (files.foldl (fun gs g => addToGroups gs (dateKey off now g.uploadDate) g) gs) =
        some fs ∧ f ∈ fs := by
  induction files with
  | nil =>
    intro gs f h
    rcases h with h | h
    · simpa using h
    · cases h
  | cons g rest ih =>
    intro gs f h
    rw [List.foldl_cons]
    refine ih (addToGroups gs (dateKey off now g.uploadDate) g) f ?_
    rcases h with ⟨fs, hfs, hmem⟩ | h
    · left
      by_cases hk : dateKey off now f.uploadDate = dateKey off now g.uploadDate
      · rw [hk, lookup_addToGroups_self]
        exact ⟨_, rfl, by rw [← hk, hfs]; simpa using Or.inl hmem⟩
      · rw [lookup_addToGroups_ne _ _ _ _ hk]
        exact ⟨fs, hfs, hmem⟩
    · rcases List.mem_cons.mp h with rfl | h
      · left
        rw [lookup_addToGroups_self]
        exact ⟨_, rfl, by simp⟩
      · right; exact h

theorem mem_groupFilesByDate (off now : Int) (files : List DriveFile) (f : DriveFile)
    (h : f ∈ files) :
    ∃ fs, List.lookup (dateKey off now f.uploadDate)
        (groupFilesByDate off now files) = some fs ∧ f ∈ fs :=
  mem_groupFold off now files [] f (Or.inr h)

theorem formatFullDate_ne_today (off t : Int) :
    formatFullDate off t ≠ "Today" ∧ formatFullDate off t ≠ "Yesterday" := by
  constructor
  · intro h
    have hd := congrArg String.data h
    simp only [formatFullDate, String.data_append] at hd
    simp at hd
  · intro h
    have hd := congrArg String.data h
    simp only [formatFullDate, String.data_append] at hd
    simp at hd

theorem dayOf_sub_25h_le (off now : Int) :
    dayOf off (now - 90000000) ≤ dayOf off now - 1 := by
  unfold dayOf msPerDay
  have h1 : now - 90000000 + off ≤ (now + off) + (-1) * 86400000 := by omega
  have h2 : (now - 90000000 + off) / 86400000 ≤ ((now + off) + (-1) * 86400000) / 86400000 :=
    Int.ediv_le_ediv (by norm_num) h1
  have h3 : ((now + off) + (-1) * 86400000) / 86400000 = (now + off) / 86400000 + (-1) :=
    Int.add_mul_ediv_right _ _ (by norm_num)
  omega

end SuperDrive

namespace SuperDrive

/-- C8: grouping partitions the input into buckets keyed by calendar-day
equality with the current date — "Today" for the current calendar day,
"Yesterday" for the previous one, a formatted full-date label for anything
older (never a fixed 24-hour window).  A record uploaded at the current
moment lands in "Today"; one uploaded exactly 25 hours earlier lands in
"Yesterday" or, when the boundary pushes it two calendar days back, in an
older formatted-date bucket, and never in "Today".  Every record of any
input lands in the bucket named by its date key. -/
theorem groupFilesByDate_calendar (off now : Int) (r1 r2 : DriveFile)
    (h1 : r1.uploadDate = now) (h2 : r2.uploadDate = now - 90000000) :
    (dateKey off now r1.uploadDate = "Today") ∧
    (∃ fs, List.lookup "Today" (groupFilesByDate off now [r1, r2]) = some fs ∧
      r1 ∈ fs) ∧
    (dateKey off now r2.uploadDate ≠ "Today") ∧
    (dateKey off now r2.uploadDate = "Yesterday" ∨
      (dateKey off now r2.uploadDate = formatFullDate off r2.uploadDate ∧
        dayOf off r2.uploadDate < dayOf off now - 1)) ∧
    (∃ fs, List.lookup (dateKey off now r2.uploadDate)
        (groupFilesByDate off now [r1, r2]) = some fs ∧ r2 ∈ fs) ∧
    (∀ (files : List DriveFile) (f : DriveFile), f ∈ files →
      ∃ fs, List.lookup (dateKey off now f.uploadDate)
          (groupFilesByDate off now files) = some fs ∧ f ∈ fs) := by
  have key1 : dateKey off now r1.uploadDate = "Today" := by
    rw [h1]; simp [dateKey]
  have hle : dayOf off r2.uploadDate ≤ dayOf off now - 1 := by
    rw [h2]; exact dayOf_sub_25h_le off now
  have hne_day : dayOf off r2.uploadDate ≠ dayOf off now := by omega
  have key2 : dateKey off now r2.uploadDate = "Yesterday" ∨
      (dateKey off now r2.uploadDate = formatFullDate off r2.uploadDate ∧
        dayOf off r2.uploadDate < dayOf off now - 1) := by
    by_cases hy : dayOf off r2.uploadDate = dayOf off now - 1
    · left; simp [dateKey, hne_day, hy]
    · right
      refine ⟨by simp [dateKey, hne_day, hy], by omega⟩
  refine ⟨key1, ?_, ?_, key2, ?_, ?_⟩
  · have := mem_groupFilesByDate off now [r1, r2] r1 (by simp)
    rwa [key1] at this
  · rcases key2 with hk | ⟨hk, -⟩
    · rw [hk]; decide
    · rw [hk]; exact (formatFullDate_ne_today off r2.uploadDate).1
  · exact mem_groupFilesByDate off now [r1, r2] r2 (by simp)
  · exact fun files f hf => mem_groupFilesByDate off now files f hf

/-- A record uploaded at the sample current moment (timestamp 385600000 ms,
11:06:40 into day 4 of the epoch at UTC offset 0). -/
def fileAtNow : DriveFile := { sampleFile with uploadDate := 385600000 }

/-- A record uploaded exactly 25 hours before `fileAtNow`
(385600000 - 90000000 = 295600000). -/
def fileAt25hAgo : DriveFile := { sampleFile2 with uploadDate := 295600000 }

/-- Witness for C8 at a concrete clock: the record uploaded 25 hours before
the sample "now" falls on the previous calendar day or older, never today. -/
theorem groupFilesByDate_calendar_witness :
    dateKey 0 385600000 fileAt25hAgo.uploadDate = "Yesterday" ∨
      (dateKey 0 385600000 fileAt25hAgo.uploadDate =
        formatFullDate 0 fileAt25hAgo.uploadDate ∧
        dayOf 0 fileAt25hAgo.uploadDate < dayOf 0 385600000 - 1) :=
  (groupFilesByDate_calendar 0 385600000 fileAtNow fileAt25hAgo rfl (by decide)).2.2.2.1

end SuperDrive

namespace SuperDrive

/-! ## Content Analysis caller: analyzeFileContent (src/services/gemini.ts)

`getClient()` throws ("API Key not found") when `process.env.API_KEY` is
absent; this happens before the protected region, so it is the only way the
function rejects.  Inside the `try` block the transport call
`ai.models.generateContent(...)` may throw, its `response.text` may be
missing or empty (`if (!text) throw ...`), and `JSON.parse(text)` may throw;
the `catch` turns each of these into the fixed fallback result.  The request
sent carries `cleanBase64` of the record's data and its MIME type, and its
response is schema-constrained JSON `{ summary, tags }`, so a successful
parse yields an `AnalysisResult`; the transport's resolution for the one
request enters as the `transport` parameter, `JSON.parse` of the reply
as `parseResp` (`none` models a parse exception). -/

/-- `file.data.split(',')[1] || file.data`: strip a data-URL prefix when a
comma is present and the remainder is truthy. -/
def cleanBase64 (data : String) : String :=
  match (data.splitOn ",").get? 1 with
  | some t => if t = "" then data else t
  | none => data

/-- How the single `generateContent` call resolves: a thrown transport
error, or a response whose `text` is absent or present. -/
inductive TransportOutcome where
  | throw (msg : String)
  | reply (text : Option String)

/-- The fixed fallback of the `catch` block in src/services/gemini.ts. -/
def fallbackResult : AnalysisResult :=
  { summary := "Could not generate summary at this time.", tags := ["untagged"] }

/-- `analyzeFileContent` (src/services/gemini.ts lines 10-59).  The
`transport` parameter resolves the one `generateContent` request, which
carries the cleaned base64 payload and the record's MIME type. -/
def analyzeFileContent (apiKey : Option String)
    (transport : String → String → TransportOutcome)
    (parseResp : String → Option AnalysisResult) (file : DriveFile) :
    Except String AnalysisResult :=
  match apiKey with
  | none => Except.error "API Key not found"
  | some _ =>
    Except.ok (match transport (cleanBase64 file.data) file.mimeType with
      | .throw _ => fallbackResult
      | .reply none => fallbackResult
      | .reply (some text) =>
        if text = "" then fallbackResult
        else
          match parseResp text with
          | none => fallbackResult
          | some r => r)

/-- The analysis request failed in transit or in parsing: the transport
threw, or the response had no (or an empty) text, or its text was not
parseable JSON. -/
def analysisFailed (outcome : TransportOutcome)
    (parseResp : String → Option AnalysisResult) : Prop :=
  (∃ m, outcome = .throw m) ∨ outcome = .reply none ∨
    (∃ t, outcome = .reply (some t) ∧ (t = "" ∨ parseResp t = none))

end SuperDrive

namespace SuperDrive

/-- C2: for every analysis request made with the API key configured, any
transport or parse failure makes `analyzeFileContent` resolve with the fixed
fallback `{ summary: "Could not generate summary at this time.",
tags: ["untagged"] }` instead of propagating the error to its caller. -/
theorem analyzeFileContent_fallback (k : String)
    (transport : String → String → TransportOutcome)
    (parseResp : String → Option AnalysisResult) (file : DriveFile)
    (h : analysisFailed (transport (cleanBase64 file.data) file.mimeType) parseResp) :
    analyzeFileContent (some k) transport parseResp file = Except.ok fallbackResult := by
  unfold analyzeFileContent
  rcases h with ⟨m, hm⟩ | hm | ⟨t, hm, ht⟩ <;> rw [hm]
  · rcases ht with rfl | ht
    · rfl
    · by_cases hte : t = ""
      · subst hte; rfl
      · simp [hte, ht]

/-- Witness for C2: a thrown transport error on a concrete record resolves
with the fallback result. -/
theorem analyzeFileContent_fallback_witness :
    analyzeFileContent (some "key") (fun _ _ => TransportOutcome.throw "network down")
        (fun _ => none) sampleFile = Except.ok fallbackResult :=
  analyzeFileContent_fallback "key" (fun _ _ => TransportOutcome.throw "network down")
    (fun _ => none) sampleFile (Or.inl ⟨"network down", rfl⟩)

/-- C10: `analyzeFileContent` rejects exactly when the API key configuration
is absent (the client is constructed before the protected region); with the
key present it always resolves normally, for every transport resolution,
every parse behaviour and every input record. -/
theorem analyzeFileContent_error_iff_no_key (apiKey : Option String)
    (transport : String → String → TransportOutcome)
    (parseResp : String → Option AnalysisResult) (file : DriveFile) :
    ((∃ e, analyzeFileContent apiKey transport parseResp file = Except.error e) ↔
      apiKey = none) ∧
    (∀ k, apiKey = some k →
      ∃ r, analyzeFileContent apiKey transport parseResp file = Except.ok r) := by
  cases apiKey with
  | none =>
    refine ⟨⟨fun _ => rfl, fun _ => ⟨"API Key not found", rfl⟩⟩, ?_⟩
    intro k hk
    cases hk
  | some k =>
    constructor
    · constructor
      · rintro ⟨e, he⟩
        simp [analyzeFileContent] at he
      · intro h
        cases h
    · intro k' _
      exact ⟨_, rfl⟩

end SuperDrive

namespace SuperDrive

/-! ## JSON.parse and catalog hydration (src/App.tsx lines 565-569)

The catalog initializer runs `JSON.parse` on the stored string with no
surrounding try/catch.  `JSON.parse` is the platform's parser of the JSON
grammar; it is modelled below as a fuel-bounded recursive-descent parser over
the character list (`none` = a thrown `SyntaxError`), with numbers kept as
their lexemes. -/

/-- A parsed JSON document. -/
inductive Json where
  | null
  | bool (b : Bool)
  | num (lexeme : String)
  | str (s : String)
  | arr (elems : List Json)
  | obj (members : List (String × Json))

/-- JSON insignificant whitespace. -/
def isJsonWs (c : Char) : Bool := c = ' ' || c = '\t' || c = '\n' || c = '\r'

/-- Drop leading JSON whitespace. -/
def skipWs (cs : List Char) : List Char := cs.dropWhile isJsonWs

/-- The value of one hex digit. -/
def hexVal (c : Char) : Option Nat :=
  if c.isDigit then some (c.toNat - 48)
  else if 'a' ≤ c ∧ c ≤ 'f' then some (c.toNat - 87)
  else if 'A' ≤ c ∧ c ≤ 'F' then some (c.toNat - 55)
  else none

/-- The body of a JSON string after its opening quote: decoded characters
and the remainder after the closing quote. -/
def parseStrChars : Nat → List Char → Option (List Char × List Char)
  | 0, _ => none
  | _ + 1, [] => none
  | fuel + 1, c :: rest =>
    if c = '\"' then some ([], rest)
    else if c = '\\' then
      match rest with
      | [] => none
      | e :: rest2 =>
        let cont : Char → List Char → Option (List Char × List Char) :=
          fun decoded rem =>
            match parseStrChars fuel rem with
            | some (cs, rem2) => some (decoded :: cs, rem2)
            | none => none
        if e = '\"' then cont '\"' rest2
        else if e = '\\' then cont '\\' rest2
        else if e = '/' then cont '/' rest2
        else if e = 'b' then cont (Char.ofNat 8) rest2
        else if e = 'f' then cont (Char.ofNat 12) rest2
        else if e = 'n' then cont '\n' rest2
        else if e = 'r' then cont '\r' rest2
        else if e = 't' then cont '\t' rest2
        else if e = 'u' then
          match rest2 with
          | h1 :: h2 :: h3 :: h4 :: rest3 =>
            match hexVal h1, hexVal h2, hexVal h3, hexVal h4 with
            | some a, some b, some c2, some d =>
              cont (Char.ofNat (((a * 16 + b) * 16 + c2) * 16 + d)) rest3
            | _, _, _, _ => none
          | _ => none
        else none
    else if c.toNat < 32 then none
    else
      match parseStrChars fuel rest with
      | some (cs, rem2) => some (c :: cs, rem2)
      | none => none

/-- An optional JSON fraction part `.digits`. -/
def parseFrac (cs : List Char) : Option (List Char × List Char) :=
  match cs with
  | '.' :: rest =>
    let ds := rest.takeWhile Char.isDigit
    if ds.isEmpty then none else some ('.' :: ds, rest.dropWhile Char.isDigit)
  | _ => some ([], cs)

/-- An optional JSON exponent part `eE sign digits`. -/
def parseExp (cs : List Char) : Option (List Char × List Char) :=
  match cs with
  | [] => some ([], [])
  | e :: rest =>
    if e = 'e' ∨ e = 'E' then
      match rest with
      | c :: r2 =>
        if c = '+' ∨ c = '-' then
          let ds := r2.takeWhile Char.isDigit
          if ds.isEmpty then none else some (e :: c :: ds, r2.dropWhile Char.isDigit)
        else
          let ds := rest.takeWhile Char.isDigit
          if ds.isEmpty then none else some (e :: ds, rest.dropWhile Char.isDigit)
      | [] => none
    else some ([], e :: rest)

/-- A JSON number lexeme: optional minus, integer part with no leading zero,
optional fraction, optional exponent. -/
def parseNumber (cs : List Char) : Option (List Char × List Char) :=
  let stripped : List Char × List Char :=
    match cs with
    | c :: rest => if c = '-' then ([c], rest) else ([], cs)
    | [] => ([], [])
  match stripped.2 with
  | [] => none
  | c :: rest =>
    let intPart : Option (List Char × List Char) :=
      if c = '0' then some ([c], rest)
      else if c.isDigit then
        some (c :: rest.takeWhile Char.isDigit, rest.dropWhile Char.isDigit)
      else none
    match intPart with
    | none => none
    | some (ip, rest2) =>
      match parseFrac rest2 with
      | none => none
      | some (fp, rest3) =>
        match parseExp rest3 with
        | none => none
        | some (ep, rest4) => some (stripped.1 ++ ip ++ fp ++ ep, rest4)

mutual

/-- One JSON value, fuel-bounded. -/
def parseValue : Nat → List Char → Option (Json × List Char)
  | 0, _ => none
  | fuel + 1, cs =>
    match skipWs cs with
    | [] => none
    | c :: rest =>
      if c = '\"' then
        match parseStrChars (rest.length + 1) rest with
        | some (body, rem) => some (.str (String.mk body), rem)
        | none => none
      else if c = '[' then
        match parseArray fuel rest with
        | some (js, rem) => some (.arr js, rem)
        | none => none
      else if c = Char.ofNat 123 then
        match parseObject fuel rest with
        | some (ms, rem) => some (.obj ms, rem)
        | none => none
      else if c = 't' then
        if ['r', 'u', 'e'].isPrefixOf rest then some (.bool true, rest.drop 3) else none
      else if c = 'f' then
        if ['a', 'l', 's', 'e'].isPrefixOf rest then some (.bool false, rest.drop 4) else none
      else if c = 'n' then
        if ['u', 'l', 'l'].isPrefixOf rest then some (.null, rest.drop 3) else none
      else
        match parseNumber (c :: rest) with
        | some (lex, rem) => some (.num (String.mk lex), rem)
        | none => none

/-- The elements of a JSON array after `[`. -/
def parseArray : Nat → List Char → Option (List Json × List Char)
  | 0, _ => none
  | fuel + 1, cs =>
    match skipWs cs with
    | ']' :: rest => some ([], rest)
    | cs2 =>
      match parseValue fuel cs2 with
      | some (j, rem) =>
        match parseArrayTail fuel rem with
        | some (js, rem2) => some (j :: js, rem2)
        | none => none
      | none => none

/-- `, value` repetitions and the closing `]` of a JSON array. -/
def parseArrayTail : Nat → List Char → Option (List Json × List Char)
  | 0, _ => none
  | fuel + 1, cs =>
    match skipWs cs with
    | ']' :: rest => some ([], rest)
    | ',' :: rest =>
      match parseValue fuel rest with
      | some (j, rem) =>
        match parseArrayTail fuel rem with
        | some (js, rem2) => some (j :: js, rem2)
        | none => none
      | none => none
    | _ => none

/-- One `"key": value` member of a JSON object. -/
def parseMember : Nat → List Char → Option ((String × Json) × List Char)
  | 0, _ => none
  | fuel + 1, cs =>
    match skipWs cs with
    | '\"' :: rest =>
      match parseStrChars (rest.length + 1) rest with
      | some (key, rem) =>
        match skipWs rem with
        | ':' :: rem2 =>
          match parseValue fuel rem2 with
          | some (j, rem3) => some ((String.mk key, j), rem3)
          | none => none
        | _ => none
      | none => none
    | _ => none

/-- The members of a JSON object after the opening brace. -/
def parseObject : Nat → List Char → Option (List (String × Json) × List Char)
  | 0, _ => none
  | fuel + 1, cs =>
    match skipWs cs with
    | c :: rest =>
      if c = Char.ofNat 125 then some ([], rest)
      else
        match parseMember fuel cs with
        | some (m, rem) =>
          match parseObjectTail fuel rem with
          | some (ms, rem2) => some (m :: ms, rem2)
          | none => none
        | none => none
    | [] => none

/-- `, member` repetitions and the closing brace of a JSON object. -/
def parseObjectTail : Nat → List Char → Option (List (String × Json) × List Char)
  | 0, _ => none
  | fuel + 1, cs =>
    match skipWs cs with
    | c :: rest =>
      if c = Char.ofNat 125 then some ([], rest)
      else if c = ',' then
        match parseMember fuel rest with
        | some (m, rem) =>
          match parseObjectTail fuel rem with
          | some (ms, rem2) => some (m :: ms, rem2)
          | none => none
        | none => none
      else none
    | [] => none

end

/-- `JSON.parse`: parse one document, allow trailing whitespace only.
`none` models the thrown `SyntaxError`. -/
def jsonParse (s : String) : Option Json :=
  match parseValue (2 * s.length + 2) s.data with
  | some (j, rest) => if (skipWs rest).isEmpty then some j else none
  | none => none

/-- The catalog initializer of `DriveDashboard` (src/App.tsx lines 565-569):
`const saved = localStorage.getItem(...); return saved ? JSON.parse(saved) : []`.
A missing entry (JS `null`) or an empty stored string is falsy, so the
catalog starts empty; otherwise `JSON.parse` runs with no try/catch: a parse
exception escapes the initializer (`Except.error`), and a successfully
parsed document of any shape is returned without validation. -/
def hydrateFiles (saved : Option String) : Except String Json :=
  match saved with
  | none => Except.ok (Json.arr [])
  | some s =>
    if s = "" then Except.ok (Json.arr [])
    else
      match jsonParse s with
      | some j => Except.ok j
      | none => Except.error "SyntaxError: JSON.parse"

/-- Sanity evaluations of the `JSON.parse` model. -/
theorem jsonParse_examples :
    jsonParse "[]" = some (Json.arr []) ∧
    jsonParse "null" = some Json.null ∧
    jsonParse " [1, true, \"a\"] " =
      some (Json.arr [Json.num "1", Json.bool true, Json.str "a"]) ∧
    jsonParse "\x7b\"a\": []\x7d" = some (Json.obj [("a", Json.arr [])]) ∧
    jsonParse "\x7b" = none ∧
    jsonParse "not json" = none := by
  refine ⟨rfl, rfl, rfl, rfl, rfl, rfl⟩

end SuperDrive

namespace SuperDrive

/-- C3 counterexample: a stored entry holding a lone opening brace — present
but not parseable — does not hydrate to an empty catalog; the initializer
fails (the `JSON.parse` exception escapes), refuting the claim that a
malformed stored entry results in an empty catalog rather than a failure. -/
theorem hydrateFiles_malformed_fails :
    hydrateFiles (some "\x7b") ≠ Except.ok (Json.arr []) ∧
    (∃ e, hydrateFiles (some "\x7b") = Except.error e) := by
  have h : hydrateFiles (some "\x7b") = Except.error "SyntaxError: JSON.parse" := rfl
  constructor
  · rw [h]
    intro hc
    cases hc
  · exact ⟨_, h⟩

/-- C3 amended: an absent stored entry (or an empty stored string) hydrates
to the empty catalog, but a malformed entry is not tolerated — the parse
exception propagates out of the initializer — and a well-formed entry is
used as parsed, without validation against the record-array shape. -/
theorem hydrateFiles_spec (saved : Option String) :
    (saved = none → hydrateFiles saved = Except.ok (Json.arr [])) ∧
    (saved = some "" → hydrateFiles saved = Except.ok (Json.arr [])) ∧
    (∀ s, saved = some s → s ≠ "" → jsonParse s = none →
      ∃ e, hydrateFiles saved = Except.error e) ∧
    (∀ s j, saved = some s → s ≠ "" → jsonParse s = some j →
      hydrateFiles saved = Except.ok j) := by
  cases saved with
  | none =>
    refine ⟨fun _ => rfl, ?_, ?_, ?_⟩
    · intro h; cases h
    · intro s h; cases h
    · intro s j h; cases h
  | some s0 =>
    refine ⟨?_, ?_, ?_, ?_⟩
    · intro h; cases h
    · intro h
      cases h
      rfl
    · intro s h hne hparse
      cases h
      refine ⟨"SyntaxError: JSON.parse", ?_⟩
      simp [hydrateFiles, hne, hparse]
    · intro s j h hne hparse
      cases h
      simp [hydrateFiles, hne, hparse]

end SuperDrive
